import Mathlib

/-
Verification of the shell implementation in src/app/main.py.

The Python source is shallowly embedded below.  Raw command lines are
modelled as `List Char`; command names, file names and PATH entries as
`String`.  Python functions that touch the file system are parametrised
by an abstract file-system record, and Python exceptions are modelled
with `Except` or with explicit outcome types.
-/

set_option autoImplicit false
set_option linter.unusedVariables false

/-- Character list of a string literal (helper for concrete inputs). -/
def cl (s : String) : List Char := s.toList

/-! ### Builtin registry (main.py lines 248-255)

`BuiltinFactory.builtins` maps name to class.  The `"echo"` entry is
commented out in the source, so the registered keys are exactly the five
below, in dict insertion order. -/

/-- Keys of `BuiltinFactory.builtins` (main.py 248-255; `echo` is commented out). -/
def builtins_keys : List String := ["exit", "pwd", "cd", "type", "history"]

/-- `BuiltinFactory.is_builtin` (main.py 122-124): dict-membership test. -/
def is_builtin (command : String) : Bool := decide (command ∈ builtins_keys)

/-- The builtin-name list hard-coded inside `TypeExplain.execute` (main.py 179). -/
def type_builtins : List String := ["exit", "pwd", "cd", "type", "echo", "history"]

/-! ### History store operations (main.py 232-242)

The in-memory store `command_history` is a list of strings, and a
history file is modelled by its list of lines.  Each operation returns
the pair (new file contents, new store contents). -/

/-- `History.write_history_file` (main.py 232-235): opens the file in `w`
mode and writes every store entry; the store itself is untouched. -/
def write_history_file (store fileLines : List String) : List String × List String :=
  (store, store)

/-- `History.append_history_file` (main.py 238-242): opens the file in `a`
mode, writes every store entry, then calls `command_history.clear()`. -/
def append_history_file (store fileLines : List String) : List String × List String :=
  (fileLines ++ store, [])

/-! ### `find_common_prefix` (main.py 44-67) -/

/-- The inner loop of `find_common_prefix`: number of equal leading
characters of two strings (`common_len` in the source). -/
def commonLen : List Char → List Char → Nat
  | a :: as, b :: bs => if a = b then commonLen as bs + 1 else 0
  | _, _ => 0

/-- The outer loop of `find_common_prefix`: fold the running prefix over
the remaining strings, with the source's early exit once it is empty. -/
def lcpAux : List Char → List (List Char) → List Char
  | pre, [] => pre
  | pre, s :: rest =>
    let pre2 := pre.take (commonLen pre s)
    if pre2 = [] then pre2 else lcpAux pre2 rest

/-- `find_common_prefix` (main.py 44-67). -/
def find_common_prefix : List (List Char) → List Char
  | [] => []
  | [s] => s
  | s :: rest => lcpAux s rest

/-! ### Tokenizer: `shlex.split(input_str, posix=True)` as used by
`parse_input` (main.py 258-262).

This embeds the posix mode of Python's `shlex` lexer with
`whitespace_split=True`: whitespace separates tokens, `'...'` quotes
literally, `"..."` quotes with `\` escaping only `"` and `\`, and a
bare `\` escapes the next character.  Input ending inside a quote
raises `ValueError("No closing quotation")`; input ending right after
an escape character raises `ValueError("No escaped character")`. -/

/-- The two `ValueError`s that `shlex.split` can raise. -/
inductive ParseError
  | unterminatedQuote
  | noEscapedChar
deriving Repr, DecidableEq

/-- Lexer states of `shlex` in posix mode: outside quotes, inside single
or double quotes, or just after an escape character (from outside or
from inside double quotes). -/
inductive QMode
  | unquoted
  | single
  | double
  | escU
  | escD
deriving Repr, DecidableEq

/-- `shlex.whitespace`. -/
def shlexWs (c : Char) : Bool := c == ' ' || c == '\t' || c == '\r' || c == '\n'

/-- One pass of the `shlex` state machine over the remaining input.
`acc` is the token under construction and `started` records whether a
token is in progress (so that quotes can produce empty tokens). -/
def shlexRun : QMode → List Char → Bool → List Char → Except ParseError (List (List Char))
  | .unquoted, acc, started, [] => .ok (if started then [acc] else [])
  | .single, _, _, [] => .error .unterminatedQuote
  | .double, _, _, [] => .error .unterminatedQuote
  | .escU, _, _, [] => .error .noEscapedChar
  | .escD, _, _, [] => .error .noEscapedChar
  | .unquoted, acc, started, c :: rest =>
    if shlexWs c then
      if started then Except.map (fun ts => acc :: ts) (shlexRun .unquoted [] false rest)
      else shlexRun .unquoted [] false rest
    else if c == '\'' then shlexRun .single acc true rest
    else if c == '"' then shlexRun .double acc true rest
    else if c == '\\' then shlexRun .escU acc started rest
    else shlexRun .unquoted (acc ++ [c]) true rest
  | .single, acc, _, c :: rest =>
    if c == '\'' then shlexRun .unquoted acc true rest
    else shlexRun .single (acc ++ [c]) true rest
  | .double, acc, _, c :: rest =>
    if c == '"' then shlexRun .unquoted acc true rest
    else if c == '\\' then shlexRun .escD acc true rest
    else shlexRun .double (acc ++ [c]) true rest
  | .escU, acc, _, c :: rest => shlexRun .unquoted (acc ++ [c]) true rest
  | .escD, acc, _, c :: rest =>
    if c == '"' || c == '\\' then shlexRun .double (acc ++ [c]) true rest
    else shlexRun .double (acc ++ ['\\', c]) true rest

/-- `shlex.split(s, posix=True)` (the tokenizer behind `parse_input`,
main.py 258-262). -/
def shlex_split (s : List Char) : Except ParseError (List (List Char)) :=
  shlexRun .unquoted [] false s

/-- A character with no special lexical role: not tokenizer whitespace,
not a quote, not the escape character, and not the pipe separator.
Used to state facts about arguments that tokenize as plain words. -/
def plainChar (c : Char) : Prop :=
  shlexWs c = false ∧ c ≠ '\'' ∧ c ≠ '"' ∧ c ≠ '\\' ∧ c ≠ '|'

instance (c : Char) : Decidable (plainChar c) := by
  unfold plainChar
  infer_instance

/-- Decidable equality for `Except` results of the tokenizer. -/
instance instDecEqExcept {ε α : Type} [DecidableEq ε] [DecidableEq α] :
    DecidableEq (Except ε α) := fun a b =>
  match a, b with
  | .error e, .error f =>
    if h : e = f then .isTrue (h ▸ rfl) else .isFalse (fun hc => h (Except.error.inj hc))
  | .ok x, .ok y =>
    if h : x = y then .isTrue (h ▸ rfl) else .isFalse (fun hc => h (Except.ok.inj hc))
  | .error _, .ok _ => .isFalse (fun hc => Except.noConfusion hc)
  | .ok _, .error _ => .isFalse (fun hc => Except.noConfusion hc)

/-! ### Python string helpers used by the redirection code -/

/-- Python `str.isspace` characters relevant to `str.strip()` (ASCII). -/
def pyIsSpace (c : Char) : Bool :=
  c == ' ' || c == '\t' || c == '\n' || c == '\r' || c == '\x0b' || c == '\x0c'

/-- Python `str.lstrip()`. -/
def lstrip (s : List Char) : List Char := s.dropWhile pyIsSpace

/-- Python `str.rstrip()`. -/
def rstrip (s : List Char) : List Char := (s.reverse.dropWhile pyIsSpace).reverse

/-- Python `str.strip()`. -/
def strip (s : List Char) : List Char := rstrip (lstrip s)

/-- Python substring test `pat in s`. -/
def containsSub (pat : List Char) : List Char → Bool
  | [] => pat.isPrefixOf []
  | c :: rest => pat.isPrefixOf (c :: rest) || containsSub pat rest

/-- Python `s.split(pat)` for a one-character pattern: split at every
occurrence of `p`. -/
def split1 (p : Char) : List Char → List (List Char)
  | [] => [[]]
  | c :: rest =>
    if c = p then [] :: split1 p rest
    else
      match split1 p rest with
      | [] => [[c]]
      | t :: ts => (c :: t) :: ts

/-- Python `s.split(pat)` for a two-character pattern `[p, q]`:
split at every leftmost, non-overlapping occurrence. -/
def split2 (p q : Char) : List Char → List (List Char)
  | [] => [[]]
  | [c] => [[c]]
  | c :: d :: rest =>
    if c = p ∧ d = q then [] :: split2 p q rest
    else
      match split2 p q (d :: rest) with
      | [] => [[c]]
      | t :: ts => (c :: t) :: ts

/-- Python `s.split(pat)` for a three-character pattern `[p, q, r]`:
split at every leftmost, non-overlapping occurrence. -/
def split3 (p q r : Char) : List Char → List (List Char)
  | [] => [[]]
  | [c] => [[c]]
  | [c, d] => [[c, d]]
  | c :: d :: e :: rest =>
    if c = p ∧ d = q ∧ e = r then [] :: split3 p q r rest
    else
      match split3 p q r (d :: e :: rest) with
      | [] => [[c]]
      | t :: ts => (c :: t) :: ts

/-! ### Redirection extraction in `run_single_command` (main.py 407-447)

The source searches the *raw* line for the operator substrings
`2>>`, `2>`, `1>>`, `1>`, `>>`, `>` (in that if/elif order), splits the
line at every occurrence, takes `parts[0].strip()` as the command part
and `parts[1].strip()` as the target file; an empty target string is
treated as "no redirection" later (Python truthiness). -/

/-- Record of the redirection extraction performed at the top of
`run_single_command`; empty file fields mean "no redirection". -/
structure RedirResult where
  cmd_part : List Char
  stdout_file : List Char
  stdout_append : Bool
  stderr_file : List Char
  stderr_append : Bool
deriving Repr, DecidableEq

/-- `parts[1].strip() if len(parts) > 1 else ""`. -/
def secondPart (parts : List (List Char)) : List Char :=
  strip ((parts.drop 1).headD [])

/-- The if/elif substring scan of main.py 407-447. -/
def extract_redirections (input0 : List Char) : RedirResult :=
  let st :=
    if containsSub ['2', '>', '>'] input0 then
      let parts := split3 '2' '>' '>' input0
      (strip (parts.headD []), secondPart parts, true)
    else if containsSub ['2', '>'] input0 then
      let parts := split2 '2' '>' input0
      (strip (parts.headD []), secondPart parts, false)
    else (input0, ([] : List Char), false)
  let input1 := st.1
  let stderr_file := st.2.1
  let stderr_append := st.2.2
  if containsSub ['1', '>', '>'] input1 then
    let parts := split3 '1' '>' '>' input1
    ⟨strip (parts.headD []), secondPart parts, true, stderr_file, stderr_append⟩
  else if containsSub ['1', '>'] input1 then
    let parts := split2 '1' '>' input1
    ⟨strip (parts.headD []), secondPart parts, false, stderr_file, stderr_append⟩
  else if containsSub ['>', '>'] input1 then
    let parts := split2 '>' '>' input1
    ⟨strip (parts.headD []), secondPart parts, true, stderr_file, stderr_append⟩
  else if containsSub ['>'] input1 then
    let parts := split1 '>' input1
    ⟨strip (parts.headD []), secondPart parts, false, stderr_file, stderr_append⟩
  else
    ⟨input1, [], false, stderr_file, stderr_append⟩

/-! ### Pipeline splitter `parse_pipeline` (main.py 264-295) -/

/-- The character loop of `parse_pipeline`: `inq` is the current quote
character (if inside quotes) and `cur` the current stage text.  At an
unquoted `|` the stripped stage is appended unconditionally; at the end
of input the final stage is appended only if non-empty after stripping. -/
def ppAux (inq : Option Char) (cur : List Char) : List Char → List (List Char)
  | [] => if strip cur ≠ [] then [strip cur] else []
  | c :: rest =>
    match inq with
    | none =>
      if c = '"' ∨ c = '\'' then ppAux (some c) (cur ++ [c]) rest
      else if c = '|' then strip cur :: ppAux none [] rest
      else ppAux none (cur ++ [c]) rest
    | some q =>
      if c = q then ppAux none (cur ++ [c]) rest
      else ppAux (some q) (cur ++ [c]) rest

/-- `parse_pipeline` (main.py 264-295).  It has no failure path. -/
def parse_pipeline (s : List Char) : List (List Char) := ppAux none [] s

/-! ### Outcome of one iteration of the main loop (main.py 539-562)

For a stripped non-empty input line the loop either returns to the
prompt, terminates the whole process with a `SystemExit` (the `exit`
builtin calls `exit(0)`), or dies with an uncaught exception: the
`try` block catches only `EOFError` and `KeyboardInterrupt`, so a
`ValueError` raised by `shlex.split` propagates and kills the shell.
Lines containing `|` go through `execute_pipeline`, whose own
`try/except Exception` keeps the shell alive. -/

/-- Observable outcome of handling one input line. -/
inductive LoopOutcome
  | cont
  | crash (e : ParseError)
  | exited (status : Nat)
deriving Repr, DecidableEq

/-- Outcome-level model of one iteration of the `__main__` loop on a
stripped, non-empty line (main.py 539-562 together with
`run_single_command`, main.py 407-506). -/
def handle_line (line : List Char) : LoopOutcome :=
  if '|' ∈ line then .cont
  else
    match shlex_split line with
    | .error e => .crash e
    | .ok tokens =>
      let command := String.mk (tokens.headD [])
      if is_builtin command then
        if command = "exit" then .exited 0 else .cont
      else
        let er := extract_redirections line
        match shlex_split er.cmd_part with
        | .error e => .crash e
        | .ok tokens2 =>
          let c2 := String.mk (tokens2.headD [])
          if is_builtin c2 then
            if c2 = "exit" then .exited 0 else .cont
          else .cont

/-! ### Command resolution: `type` vs. execution (main.py 172-193, 453, 483)

An abstract file system tells which paths are regular executable
files.  `TypeExplain.find_in_path` splits `PATH` by `":"` and probes
`os.path.join(dir, cmd)`; execution resolves via `shutil.which`, which
additionally returns `None` outright when `PATH` is the empty string. -/

/-- Classification of a command name. -/
inductive TypeKind
  | builtin
  | external (path : String)
  | notFound
deriving Repr, DecidableEq

/-- Abstract file system for PATH resolution: which paths are regular
files executable by the current user. -/
structure PathFS where
  isExecFile : String → Bool

/-- Python `path_env.split(":")` (`os.pathsep` is `:` on Linux). -/
def pathSplit (s : String) : List String := (split1 ':' s.toList).map String.mk

/-- Python `text.startswith(pre)` reading both strings as char lists. -/
def strStartsWith (pre s : String) : Bool := pre.toList.isPrefixOf s.toList

/-- `os.path.join(dir, f)` for the cases arising here. -/
def joinPath (d f : String) : String :=
  if d = "" then f
  else if (cl d).getLast? = some '/' then d ++ f
  else d ++ "/" ++ f

/-- Scan a directory list for the first hit (shared loop shape of
`TypeExplain.find_in_path` and of `shutil.which`). -/
def findFirst (fs : PathFS) : List String → String → Option String
  | [], _ => none
  | d :: ds, cmd =>
    if fs.isExecFile (joinPath d cmd) then some (joinPath d cmd)
    else findFirst fs ds cmd

/-- `TypeExplain.find_in_path` (main.py 188-193): split `PATH` by `":"`
(an empty `PATH` thus yields the single entry `""`). -/
def find_in_path (fs : PathFS) (path_env cmd : String) : Option String :=
  findFirst fs (pathSplit path_env) cmd

/-- Python stdlib `shutil.which` on a command name without path
separator: returns `None` when `PATH` is empty, otherwise scans the
`PATH` directories for the first executable regular file. -/
def which_model (fs : PathFS) (path_env cmd : String) : Option String :=
  if path_env = "" then none else findFirst fs (pathSplit path_env) cmd

/-- What `type x` reports (main.py 172-193). -/
def type_classify (fs : PathFS) (path_env x : String) : TypeKind :=
  if x ∈ type_builtins then .builtin
  else match find_in_path fs path_env x with
    | some p => .external p
    | none => .notFound

/-- What executing `x` dispatches to (main.py 549-558 with
`run_single_command` 453-485): registered builtin, else `shutil.which`. -/
def exec_classify (fs : PathFS) (path_env x : String) : TypeKind :=
  if is_builtin x then .builtin
  else match which_model fs path_env x with
    | some p => .external p
    | none => .notFound

/-! ### Completion provider (main.py 14-42) -/

/-- Abstract file system for the completion scan. -/
structure FileSys where
  isDir : String → Bool
  listDir : String → Option (List String)
  isFile : String → Bool
  accessX : String → Bool

/-- Inner loop of `get_executable_commands` over one directory listing:
keep filenames that start with `text`, are executable regular files,
and are not yet collected. -/
def scanDirFiles (fs : FileSys) (d text : String) : List String → List String → List String
  | acc, [] => acc
  | acc, f :: rest =>
    if strStartsWith text f && (fs.isFile (joinPath d f) && fs.accessX (joinPath d f))
        && !(acc.contains f)
    then scanDirFiles fs d text (acc ++ [f]) rest
    else scanDirFiles fs d text acc rest

/-- Outer loop of `get_executable_commands` over the PATH directories:
skip non-directories and unreadable directories (`listDir = none`). -/
def scanDirs (fs : FileSys) (text : String) : List String → List String → List String
  | acc, [] => acc
  | acc, d :: rest =>
    if fs.isDir d then
      match fs.listDir d with
      | none => scanDirs fs text acc rest
      | some files => scanDirs fs text (scanDirFiles fs d text acc files) rest
    else scanDirs fs text acc rest

/-- `get_executable_commands` (main.py 14-35): early return on empty
`PATH`, then collect and finally `sorted(...)`. -/
def get_executable_commands (fs : FileSys) (path_env text : String) : List String :=
  if path_env = "" then []
  else List.insertionSort (· ≤ ·) (scanDirs fs text [] (pathSplit path_env))

/-- `get_all_matches` (main.py 37-42): the builtin candidate list is the
hard-coded `['exit']`, prepended to the executable matches. -/
def get_all_matches (fs : FileSys) (path_env text : String) : List String :=
  (["exit"].filter fun b => strStartsWith text b) ++ get_executable_commands fs path_env text

/-- The per-file filter condition of `get_executable_commands` (without
the dedup test), as a proposition. -/
def execCond (fs : FileSys) (d text f : String) : Prop :=
  strStartsWith text f = true ∧ fs.isFile (joinPath d f) = true ∧ fs.accessX (joinPath d f) = true

/-- A file system with no entries at all (used for concrete instances). -/
def noFS : PathFS := ⟨fun _ => false⟩

/-- A file system whose only directory is `/bin`, holding executables
`ls` and `cat` (used for concrete instances). -/
def binFS : FileSys :=
  ⟨fun d => d == "/bin",
   fun d => if d == "/bin" then some ["ls", "cat"] else none,
   fun p => p == "/bin/ls" || p == "/bin/cat",
   fun p => p == "/bin/ls" || p == "/bin/cat"⟩

/-! ## Helper lemmas -/

/-- The empty list is a prefix of anything. -/
theorem nilPre {α : Type} (b : List α) : [] <+: b := ⟨b, rfl⟩

/-- Any list is a prefix of itself. -/
theorem preRefl {α : Type} (l : List α) : l <+: l := ⟨[], List.append_nil l⟩

/-- `take` always yields a prefix. -/
theorem takePre {α : Type} (n : Nat) (a : List α) : a.take n <+: a :=
  ⟨a.drop n, List.take_append_drop n a⟩

/-- The truncation computed by `commonLen` is a prefix of the second string. -/
theorem take_commonLen_right : ∀ (a b : List Char), a.take (commonLen a b) <+: b
  | [], b => nilPre b
  | _ :: _, [] => nilPre []
  | a :: as, b :: bs => by
    by_cases h : a = b
    · subst h
      have ih := take_commonLen_right as bs
      have hc : commonLen (a :: as) (a :: bs) = commonLen as bs + 1 := by simp [commonLen]
      rw [hc, List.take_succ_cons]
      obtain ⟨t, ht⟩ := ih
      exact ⟨t, by rw [List.cons_append, ht]⟩
    · have hc : commonLen (a :: as) (b :: bs) = 0 := by simp [commonLen, h]
      rw [hc]
      exact nilPre _

/-- Any common prefix of `a` and `b` is a prefix of the `commonLen` truncation. -/
theorem commonLen_greatest : ∀ (p a b : List Char), p <+: a → p <+: b → p <+: a.take (commonLen a b)
  | [], _, _, _, _ => nilPre _
  | x :: p', a, b, ha, hb => by
    obtain ⟨t, ht⟩ := ha
    obtain ⟨u, hu⟩ := hb
    subst ht hu
    simp only [List.cons_append]
    have ih := commonLen_greatest p' (p' ++ t) (p' ++ u) ⟨t, rfl⟩ ⟨u, rfl⟩
    have hc : commonLen (x :: (p' ++ t)) (x :: (p' ++ u)) = commonLen (p' ++ t) (p' ++ u) + 1 := by
      simp [commonLen]
    rw [hc, List.take_succ_cons]
    obtain ⟨v, hv⟩ := ih
    exact ⟨v, by rw [List.cons_append, hv]⟩

/-- The running prefix of `lcpAux` is a prefix of its first argument. -/
theorem lcpAux_pre : ∀ (pre : List Char) (l : List (List Char)), lcpAux pre l <+: pre
  | pre, [] => preRefl pre
  | pre, s :: rest => by
    simp only [lcpAux]
    by_cases h : pre.take (commonLen pre s) = []
    · rw [if_pos h, h]
      exact nilPre pre
    · rw [if_neg h]
      exact (lcpAux_pre _ rest).trans (takePre _ pre)

/-- The result of `lcpAux` is a prefix of every processed string. -/
theorem lcpAux_mem : ∀ (pre : List Char) (l : List (List Char)) (s : List Char),
    s ∈ l → lcpAux pre l <+: s
  | _, [], s, h => absurd h (List.not_mem_nil s)
  | pre, s0 :: rest, s, h => by
    simp only [lcpAux]
    by_cases hp : pre.take (commonLen pre s0) = []
    · rw [if_pos hp, hp]
      exact nilPre s
    · rw [if_neg hp]
      rcases List.mem_cons.1 h with rfl | hmem
      · exact (lcpAux_pre _ rest).trans (take_commonLen_right pre s)
      · exact lcpAux_mem _ rest s hmem

/-- Any common prefix of the seed and of all processed strings is a
prefix of the `lcpAux` result. -/
theorem lcpAux_greatest : ∀ (p pre : List Char) (l : List (List Char)),
    p <+: pre → (∀ s ∈ l, p <+: s) → p <+: lcpAux pre l
  | _, _, [], hp, _ => hp
  | p, pre, s0 :: rest, hp, hs => by
    simp only [lcpAux]
    have hp2 : p <+: pre.take (commonLen pre s0) :=
      commonLen_greatest p pre s0 hp (hs s0 (List.mem_cons_self _ _))
    by_cases hq : pre.take (commonLen pre s0) = []
    · rw [if_pos hq]
      exact hp2
    · rw [if_neg hq]
      exact lcpAux_greatest p _ rest hp2 (fun s hs' => hs s (List.mem_cons_of_mem _ hs'))

/-! ## Claim theorems -/

/-- C10: `find_common_prefix` computes the longest common prefix: on the
empty list it returns the empty string, and on a non-empty list its
result is a prefix of every element and extends every common prefix. -/
theorem find_common_prefix_correct :
    find_common_prefix [] = [] ∧
    ∀ (l : List (List Char)), l ≠ [] →
      (∀ s ∈ l, find_common_prefix l <+: s) ∧
      (∀ p : List Char, (∀ s ∈ l, p <+: s) → p <+: find_common_prefix l) := by
  refine ⟨rfl, ?_⟩
  intro l hl
  cases l with
  | nil => exact absurd rfl hl
  | cons s l' =>
    cases l' with
    | nil =>
      constructor
      · intro s' hs'
        rw [List.mem_singleton.1 hs']
        exact preRefl s
      · intro p hp
        exact hp s (List.mem_singleton.2 rfl)
    | cons r t =>
      have he : find_common_prefix (s :: r :: t) = lcpAux s (r :: t) := rfl
      constructor
      · intro s' hs'
        rw [he]
        rcases List.mem_cons.1 hs' with rfl | hmem
        · exact lcpAux_pre s' (r :: t)
        · exact lcpAux_mem s (r :: t) s' hmem
      · intro p hp
        rw [he]
        exact lcpAux_greatest p s (r :: t) (hp s (List.mem_cons_self _ _))
          (fun s' h' => hp s' (List.mem_cons_of_mem _ h'))

/-- Witness for C10 at a concrete input. -/
theorem find_common_prefix_correct_w :
    find_common_prefix [cl "ab", cl "ac"] <+: cl "ab" :=
  (find_common_prefix_correct.2 [cl "ab", cl "ac"] (by decide)).1 (cl "ab") (by decide)

/-- C1 counterexample: `echo` is not among the registered builtin keys,
so the resolver does not classify it as BUILTIN. -/
theorem echo_not_registered :
    "echo" ∉ builtins_keys ∧ is_builtin "echo" = false := by decide

/-- C1 (amended): the registry keys are exactly `exit`, `pwd`, `cd`,
`type`, `history`; `echo` is not registered, so running `echo` never
dispatches to a builtin (it goes to PATH lookup). -/
theorem registry_keys_without_echo :
    builtins_keys = ["exit", "pwd", "cd", "type", "history"] ∧
    is_builtin "echo" = false ∧
    ∀ (fs : PathFS) (path_env : String), exec_classify fs path_env "echo" ≠ TypeKind.builtin := by
  refine ⟨rfl, by decide, ?_⟩
  intro fs path_env
  unfold exec_classify
  rw [show is_builtin "echo" = false from by decide]
  cases h : which_model fs path_env "echo" <;> simp [h]

/-- C2 counterexample: `history -a` does not leave the in-memory store
unchanged; it writes the whole store (not an unwritten suffix) and then
clears it. -/
theorem history_append_clears_store :
    (append_history_file ["echo a"] []).1 = ["echo a"] ∧
    (append_history_file ["echo a"] []).2 = [] ∧
    (append_history_file ["echo a"] []).2 ≠ ["echo a"] := by decide

/-- C2 (amended): `history -a <file>` appends the entire current store
to the file and clears the store (so an immediately repeated `-a`
appends nothing more); `history -w <file>` overwrites the file with the
store and leaves the store unchanged; no separate high-water mark
exists. -/
theorem history_append_flush_semantics :
    ∀ (store fileLines : List String),
      (append_history_file store fileLines).1 = fileLines ++ store ∧
      (append_history_file store fileLines).2 = [] ∧
      append_history_file (append_history_file store fileLines).2
          (append_history_file store fileLines).1 =
        ((append_history_file store fileLines).1, []) ∧
      (write_history_file store fileLines).1 = store ∧
      (write_history_file store fileLines).2 = store := by
  intro store fileLines
  refine ⟨rfl, rfl, ?_, rfl, rfl⟩
  simp [append_history_file]

/-- C3 (code bug): an input line ending inside a quote makes
`shlex.split` raise, and the main loop does not catch `ValueError`, so
the shell process dies instead of reporting and prompting again. -/
theorem unterminated_quote_kills_shell :
    shlex_split (cl "echo 'abc") = Except.error ParseError.unterminatedQuote ∧
    handle_line (cl "echo 'abc") = LoopOutcome.crash ParseError.unterminatedQuote := by decide

/-- C4 counterexample: in `echo ">" file` the quoted `>` is treated as a
redirection operator: the line is split at it, a stdout redirection
target is produced, and the mangled command part even kills the shell
with an unterminated-quote `ValueError`. -/
theorem quoted_gt_redirects :
    extract_redirections (cl "echo \">\" file") =
      ⟨cl "echo \"", cl "\" file", false, [], false⟩ ∧
    (extract_redirections (cl "echo \">\" file")).stdout_file ≠ [] ∧
    handle_line (cl "echo \">\" file") = LoopOutcome.crash ParseError.unterminatedQuote := by decide

/-- C5 counterexample: with two stdout redirections `echo hi > a > b`
the extracted target is the FIRST path `a`, not the last path `b`. -/
theorem double_redirect_first_target :
    extract_redirections (cl "echo hi > a > b") =
      ⟨cl "echo hi", cl "a", false, [], false⟩ ∧
    cl "a" ≠ cl "b" := by decide

/-- C6 counterexample: splitting `| foo`, `foo |`, `foo || bar` never
fails: the splitter returns a stage list (with empty-string stages for
leading/adjacent empties, and the trailing empty silently dropped)
instead of raising EMPTY_PIPELINE_STAGE. -/
theorem pipeline_split_never_fails :
    parse_pipeline (cl "| foo") = [[], cl "foo"] ∧
    parse_pipeline (cl "foo |") = [cl "foo"] ∧
    parse_pipeline (cl "foo || bar") = [cl "foo", [], cl "bar"] := by decide

/-- C7 counterexample: `exit 5` terminates the shell with status 0, not
status 5: `Exit.execute` ignores its argument and calls `exit(0)`. -/
theorem exit_five_exits_zero :
    handle_line (cl "exit 5") = LoopOutcome.exited 0 ∧
    LoopOutcome.exited 0 ≠ LoopOutcome.exited 5 := by decide

/-- C8 counterexample: `type echo` reports a shell builtin, but
executing `echo` does not dispatch to a builtin (with no file named
echo on PATH it fails with command not found). -/
theorem type_exec_disagree_on_echo :
    type_classify noFS "/bin" "echo" = TypeKind.builtin ∧
    exec_classify noFS "/bin" "echo" = TypeKind.notFound := by decide

/-- C8 (amended): for every name other than `echo`, and any non-empty
`PATH` string, the classification printed by `type` coincides with what
execution would do. -/
theorem type_matches_execution :
    ∀ (fs : PathFS) (path_env x : String), x ≠ "echo" → path_env ≠ "" →
      type_classify fs path_env x = exec_classify fs path_env x := by
  intro fs p x hx hp
  unfold type_classify exec_classify find_in_path which_model
  rw [if_neg hp]
  have hiff : (x ∈ type_builtins) ↔ (is_builtin x = true) := by
    simp only [type_builtins, builtins_keys, is_builtin, List.mem_cons,
      List.not_mem_nil, or_false, decide_eq_true_eq]
    constructor <;> intro h <;> tauto
  by_cases hb : x ∈ type_builtins
  · rw [if_pos hb, if_pos (hiff.1 hb)]
  · rw [if_neg hb, if_neg (fun h => hb (hiff.2 h))]

/-- Witness for C8 at a concrete name and PATH. -/
theorem type_matches_execution_w :
    type_classify noFS "/bin" "ls" = exec_classify noFS "/bin" "ls" :=
  type_matches_execution noFS "/bin" "ls" (by decide) (by decide)

/-- C9 counterexample: with PATH `/bin` holding executables `ls` and
`cat`, completion on prefix `c` returns only `cat`; the registry
builtin `cd` also starts with `c` but is absent, because the provider
consults the hard-coded list `['exit']` instead of the registry. -/
theorem completion_misses_registry_builtin :
    get_all_matches binFS "/bin" "c" = ["cat"] ∧
    "cd" ∈ builtins_keys ∧ strStartsWith "c" "cd" = true ∧
    "cd" ∉ get_all_matches binFS "/bin" "c" := by decide

/-- A run of plain characters extends the current token and produces no
further tokens. -/
theorem shlexRun_plain : ∀ (ds acc : List Char), (∀ c ∈ ds, plainChar c) →
    shlexRun QMode.unquoted acc true ds = Except.ok [acc ++ ds]
  | [], acc, _ => by simp [shlexRun]
  | c :: ds', acc, h => by
    obtain ⟨hws, hq1, hq2, hbs, _⟩ := h c (List.mem_cons_self _ _)
    have ih := shlexRun_plain ds' (acc ++ [c]) (fun x hx => h x (List.mem_cons_of_mem _ hx))
    simp only [shlexRun, hws, Bool.false_eq_true, if_false, beq_iff_eq, hq1, hq2, hbs, ih,
      List.append_assoc, List.singleton_append]

/-- C7 (amended): the `exit` builtin terminates the shell with status 0
regardless of its argument: with no argument, and with any plain-word
argument (in particular any integer N). -/
theorem exit_status_always_zero :
    handle_line (cl "exit") = LoopOutcome.exited 0 ∧
    ∀ (d : Char) (ds : List Char), (∀ c ∈ d :: ds, plainChar c) →
      handle_line (cl "exit " ++ d :: ds) = LoopOutcome.exited 0 := by
  refine ⟨by decide, ?_⟩
  intro d ds h
  have hpipe : '|' ∉ cl "exit " ++ d :: ds := by
    intro hm
    rcases List.mem_append.1 hm with h1 | h2
    · exact absurd h1 (by decide)
    · exact (h '|' h2).2.2.2.2 rfl
  obtain ⟨hws, hq1, hq2, hbs, _⟩ := h d (List.mem_cons_self _ _)
  have h1 : shlexRun QMode.unquoted [] false (d :: ds) = Except.ok [d :: ds] := by
    have ih := shlexRun_plain ds [d] (fun x hx => h x (List.mem_cons_of_mem _ hx))
    simp only [shlexRun, hws, Bool.false_eq_true, if_false, beq_iff_eq, hq1, hq2, hbs, ih,
      List.nil_append, List.singleton_append]
  have h2 : shlex_split (cl "exit " ++ d :: ds) =
      Except.map (fun ts => cl "exit" :: ts) (shlexRun QMode.unquoted [] false (d :: ds)) := rfl
  unfold handle_line
  rw [if_neg hpipe, h2, h1]
  rfl

/-- Witness for C7 at the concrete argument `5`. -/
theorem exit_status_always_zero_w :
    handle_line (cl "exit " ++ '5' :: []) = LoopOutcome.exited 0 :=
  exit_status_always_zero.2 '5' [] (by decide)

/-- A run of non-pipe, non-quote characters is simply accumulated into
the current pipeline stage. -/
theorem ppAux_plain : ∀ (a cur rest : List Char), '|' ∉ a → '"' ∉ a → '\'' ∉ a →
    ppAux none cur (a ++ rest) = ppAux none (cur ++ a) rest
  | [], cur, rest, _, _, _ => by simp
  | c :: a', cur, rest, h1, h2, h3 => by
    have hq : ¬(c = '"' ∨ c = '\'') := by
      rintro (rfl | rfl)
      · exact h2 (List.mem_cons_self _ _)
      · exact h3 (List.mem_cons_self _ _)
    have hp : ¬(c = '|') := by rintro rfl; exact h1 (List.mem_cons_self _ _)
    show ppAux none cur (c :: (a' ++ rest)) = _
    simp only [ppAux]
    rw [if_neg hq, if_neg hp,
      ppAux_plain a' (cur ++ [c]) rest (fun h => h1 (List.mem_cons_of_mem _ h))
        (fun h => h2 (List.mem_cons_of_mem _ h)) (fun h => h3 (List.mem_cons_of_mem _ h)),
      List.append_assoc, List.singleton_append]

/-- An unquoted `|` unconditionally emits the stripped current stage. -/
theorem ppAux_pipe (cur t : List Char) :
    ppAux none cur ('|' :: t) = strip cur :: ppAux none [] t := by
  simp only [ppAux]
  rw [if_neg (by decide : ¬(('|' : Char) = '"' ∨ ('|' : Char) = '\''))]
  simp

/-- C6 (amended): pipeline splitting never fails and there is no
EMPTY_PIPELINE_STAGE error: a leading `|` contributes an empty-string
stage, adjacent `||` contribute an empty-string stage in between, and a
trailing `|` is silently dropped; the resulting stage list is then
executed (an empty-string stage later fails command resolution). -/
theorem pipeline_empty_stage_semantics :
    ∀ (a rest : List Char), '|' ∉ a → '"' ∉ a → '\'' ∉ a →
      parse_pipeline ('|' :: rest) = [] :: parse_pipeline rest ∧
      parse_pipeline (a ++ '|' :: '|' :: rest) = strip a :: [] :: parse_pipeline rest ∧
      parse_pipeline (a ++ ['|']) = [strip a] := by
  intro a rest h1 h2 h3
  refine ⟨?_, ?_, ?_⟩
  · unfold parse_pipeline
    rw [ppAux_pipe]
    rfl
  · unfold parse_pipeline
    rw [ppAux_plain a [] _ h1 h2 h3, List.nil_append, ppAux_pipe, ppAux_pipe]
    rfl
  · unfold parse_pipeline
    rw [ppAux_plain a [] _ h1 h2 h3, List.nil_append, ppAux_pipe]
    rfl

/-- Witness for C6 at concrete stage texts. -/
theorem pipeline_empty_stage_semantics_w :
    parse_pipeline ('|' :: cl " bar") = [] :: parse_pipeline (cl " bar") ∧
    parse_pipeline (cl "foo " ++ '|' :: '|' :: cl " bar") =
      strip (cl "foo ") :: [] :: parse_pipeline (cl " bar") ∧
    parse_pipeline (cl "foo " ++ ['|']) = [strip (cl "foo ")] :=
  pipeline_empty_stage_semantics (cl "foo ") (cl " bar") (by decide) (by decide) (by decide)

/-- Scanning past characters that cannot start the pattern leaves the
substring test unchanged. -/
theorem containsSub_skip {h : Char} {ps : List Char} : ∀ (s t : List Char), h ∉ s →
    containsSub (h :: ps) (s ++ t) = containsSub (h :: ps) t
  | [], _, _ => rfl
  | c :: s', t, hs => by
    have hc : (h == c) = false := by
      simp only [beq_eq_false_iff_ne, ne_eq]
      rintro rfl
      exact hs (List.mem_cons_self _ _)
    simp only [List.cons_append, containsSub, List.isPrefixOf, hc, Bool.false_and, Bool.false_or]
    exact containsSub_skip s' t (fun hm => hs (List.mem_cons_of_mem _ hm))

/-- A pattern whose head never occurs in the string is not a substring. -/
theorem containsSub_none {h : Char} {ps : List Char} (s : List Char) (hs : h ∉ s) :
    containsSub (h :: ps) s = false := by
  have hskip := @containsSub_skip h ps s [] hs
  rw [List.append_nil] at hskip
  rw [hskip]
  rfl

/-- One-step reduction of the substring test on a cons cell. -/
theorem containsSub_cons_false {pat : List Char} {c : Char} {s : List Char}
    (h1 : pat.isPrefixOf (c :: s) = false) (h2 : containsSub pat s = false) :
    containsSub pat (c :: s) = false := by
  simp [containsSub, h1, h2]

/-- Splitting a string with no occurrence of the separator. -/
theorem split1_none : ∀ (p : Char) (a : List Char), p ∉ a → split1 p a = [a]
  | _, [], _ => rfl
  | p, c :: a', h => by
    have hc : ¬(c = p) := by
      rintro rfl
      exact h (List.mem_cons_self _ _)
    simp only [split1, if_neg hc]
    rw [split1_none p a' (fun hm => h (List.mem_cons_of_mem _ hm))]

/-- Splitting at the first separator occurrence. -/
theorem split1_break : ∀ (p : Char) (a t : List Char), p ∉ a →
    split1 p (a ++ p :: t) = a :: split1 p t
  | p, [], t, _ => by simp [split1]
  | p, c :: a', t, h => by
    have hc : ¬(c = p) := by
      rintro rfl
      exact h (List.mem_cons_self _ _)
    have ih := split1_break p a' t (fun hm => h (List.mem_cons_of_mem _ hm))
    show split1 p (c :: (a' ++ p :: t)) = (c :: a') :: split1 p t
    simp only [split1, if_neg hc, ih]

/-- `lstrip` keeps a string starting with a non-space character. -/
theorem lstrip_nospace {c : Char} (h : pyIsSpace c = false) (l : List Char) :
    lstrip (c :: l) = c :: l := by
  simp [lstrip, List.dropWhile_cons, h]

/-- `strip` drops a leading space character. -/
theorem strip_cons_space {c : Char} (h : pyIsSpace c = true) (l : List Char) :
    strip (c :: l) = strip l := by
  simp [strip, lstrip, List.dropWhile_cons, h]

/-- `rstrip` drops a trailing space character. -/
theorem rstrip_append_space {c : Char} (h : pyIsSpace c = true) (l : List Char) :
    rstrip (l ++ [c]) = rstrip l := by
  simp [rstrip, List.reverse_append, List.dropWhile_cons, h]

/-- `lstrip` distributes over append. -/
theorem lstrip_append (a b : List Char) :
    lstrip (a ++ b) = if lstrip a = [] then lstrip b else lstrip a ++ b := by
  induction a with
  | nil => simp [lstrip]
  | cons c a' ih =>
    cases hc : pyIsSpace c with
    | false => simp [lstrip, List.dropWhile_cons, hc]
    | true => simpa [lstrip, List.dropWhile_cons, hc] using ih

/-- `strip` drops a trailing space character. -/
theorem strip_append_space {c : Char} (h : pyIsSpace c = true) (l : List Char) :
    strip (l ++ [c]) = strip l := by
  unfold strip
  rw [lstrip_append]
  by_cases he : lstrip l = []
  · rw [if_pos he, he]
    simp [lstrip, List.dropWhile_cons, h]
  · rw [if_neg he, rstrip_append_space h]

/-- `dropWhile` cannot erase a list containing a non-space character. -/
theorem dropWhile_ne_nil_of_mem : ∀ (l : List Char) (x : Char),
    x ∈ l → pyIsSpace x = false → l.dropWhile pyIsSpace ≠ []
  | [], x, hm, _ => absurd hm (List.not_mem_nil x)
  | c :: l', x, hm, hx => by
    rw [List.dropWhile_cons]
    cases hc : pyIsSpace c with
    | true =>
      simp only [hc, if_true]
      rcases List.mem_cons.1 hm with rfl | hm'
      · rw [hx] at hc
        exact absurd hc (by simp)
      · exact dropWhile_ne_nil_of_mem l' x hm' hx
    | false =>
      simp only [hc, Bool.false_eq_true, if_false]
      exact List.cons_ne_nil _ _

/-- Stripping a string that starts with a double quote is never empty. -/
theorem strip_quote_ne_nil (post : List Char) : strip ('"' :: post) ≠ [] := by
  unfold strip
  rw [lstrip_nospace (by decide) post]
  intro hcon
  have hrev : (('"' :: post).reverse.dropWhile pyIsSpace) = [] := by
    have := congrArg List.reverse hcon
    simpa [rstrip] using hcon
  exact dropWhile_ne_nil_of_mem _ '"' (by simp) (by decide) hrev

/-- C5 (amended): with two unquoted stdout redirections in one stage the
FIRST one wins: the raw-substring split takes `parts[1]` as the target,
so only the first path is opened and the second redirection (operator
and path) is discarded entirely. -/
theorem first_redirection_wins (cmd p1 p2 : List Char)
    (hg0 : '>' ∉ cmd) (hg1 : '>' ∉ p1) (hg2 : '>' ∉ p2)
    (h10 : '1' ∉ cmd) (h11 : '1' ∉ p1) (h12 : '1' ∉ p2)
    (h20 : '2' ∉ cmd) (h21 : '2' ∉ p1) (h22 : '2' ∉ p2) :
    extract_redirections (cmd ++ ' ' :: '>' :: ' ' :: (p1 ++ ' ' :: '>' :: ' ' :: p2)) =
      ⟨strip cmd, strip p1, false, [], false⟩ := by
  have e1 : cmd ++ ' ' :: '>' :: ' ' :: (p1 ++ ' ' :: '>' :: ' ' :: p2) =
      (cmd ++ [' ']) ++ '>' :: ((' ' :: (p1 ++ [' '])) ++ '>' :: (' ' :: p2)) := by
    simp
  rw [e1]
  have hA : '>' ∉ cmd ++ [' '] := by
    intro hm
    rcases List.mem_append.1 hm with h | h
    · exact hg0 h
    · exact absurd (List.mem_singleton.1 h) (by decide)
  have hB : '>' ∉ ' ' :: (p1 ++ [' ']) := by
    intro hm
    rcases List.mem_cons.1 hm with h | h
    · exact absurd h (by decide)
    · rcases List.mem_append.1 h with h' | h'
      · exact hg1 h'
      · exact absurd (List.mem_singleton.1 h') (by decide)
  have hC : '>' ∉ ' ' :: p2 := by
    intro hm
    rcases List.mem_cons.1 hm with h | h
    · exact absurd h (by decide)
    · exact hg2 h
  have hdig : ∀ (x : Char), x ∉ cmd → x ∉ p1 → x ∉ p2 → x ≠ ' ' → x ≠ '>' →
      x ∉ (cmd ++ [' ']) ++ '>' :: ((' ' :: (p1 ++ [' '])) ++ '>' :: (' ' :: p2)) := by
    intro x hx0 hx1 hx2 hxs hxg hm
    rcases List.mem_append.1 hm with h | h
    · rcases List.mem_append.1 h with h' | h'
      · exact hx0 h'
      · exact hxs (List.mem_singleton.1 h')
    · rcases List.mem_cons.1 h with h' | h'
      · exact hxg h'
      · rcases List.mem_append.1 h' with h'' | h''
        · rcases List.mem_cons.1 h'' with h3 | h3
          · exact hxs h3
          · rcases List.mem_append.1 h3 with h4 | h4
            · exact hx1 h4
            · exact hxs (List.mem_singleton.1 h4)
        · rcases List.mem_cons.1 h'' with h3 | h3
          · exact hxg h3
          · rcases List.mem_cons.1 h3 with h4 | h4
            · exact hxs h4
            · exact hx2 h4
  have h2gg : containsSub ['2', '>', '>']
      ((cmd ++ [' ']) ++ '>' :: ((' ' :: (p1 ++ [' '])) ++ '>' :: (' ' :: p2))) = false :=
    containsSub_none _ (hdig '2' h20 h21 h22 (by decide) (by decide))
  have h2g : containsSub ['2', '>']
      ((cmd ++ [' ']) ++ '>' :: ((' ' :: (p1 ++ [' '])) ++ '>' :: (' ' :: p2))) = false :=
    containsSub_none _ (hdig '2' h20 h21 h22 (by decide) (by decide))
  have h1gg : containsSub ['1', '>', '>']
      ((cmd ++ [' ']) ++ '>' :: ((' ' :: (p1 ++ [' '])) ++ '>' :: (' ' :: p2))) = false :=
    containsSub_none _ (hdig '1' h10 h11 h12 (by decide) (by decide))
  have h1g : containsSub ['1', '>']
      ((cmd ++ [' ']) ++ '>' :: ((' ' :: (p1 ++ [' '])) ++ '>' :: (' ' :: p2))) = false :=
    containsSub_none _ (hdig '1' h10 h11 h12 (by decide) (by decide))
  have hgg : containsSub ['>', '>']
      ((cmd ++ [' ']) ++ '>' :: ((' ' :: (p1 ++ [' '])) ++ '>' :: (' ' :: p2))) = false := by
    rw [containsSub_skip _ _ hA]
    apply containsSub_cons_false
    · show List.isPrefixOf ['>', '>'] ('>' :: ' ' :: ((p1 ++ [' ']) ++ '>' :: (' ' :: p2))) = false
      simp [List.isPrefixOf, (by decide : (('>' : Char) == ' ') = false)]
    · rw [containsSub_skip _ _ hB]
      apply containsSub_cons_false
      · show List.isPrefixOf ['>', '>'] ('>' :: ' ' :: p2) = false
        simp [List.isPrefixOf, (by decide : (('>' : Char) == ' ') = false)]
      · exact containsSub_none _ hC
  have hgt : containsSub ['>']
      ((cmd ++ [' ']) ++ '>' :: ((' ' :: (p1 ++ [' '])) ++ '>' :: (' ' :: p2))) = true := by
    rw [containsSub_skip _ _ hA]
    simp [containsSub, List.isPrefixOf]
  have hsplit : split1 '>'
      ((cmd ++ [' ']) ++ '>' :: ((' ' :: (p1 ++ [' '])) ++ '>' :: (' ' :: p2))) =
      [cmd ++ [' '], ' ' :: (p1 ++ [' ']), ' ' :: p2] := by
    rw [split1_break '>' _ _ hA, split1_break '>' _ _ hB, split1_none '>' _ hC]
  simp only [extract_redirections, h2gg, h2g, h1gg, h1g, hgg, hgt, Bool.false_eq_true,
    if_false, if_true, hsplit, secondPart, List.headD, List.drop]
  rw [strip_cons_space (by decide : pyIsSpace ' ' = true),
    strip_append_space (by decide : pyIsSpace ' ' = true),
    strip_append_space (by decide : pyIsSpace ' ' = true)]

/-- Witness for C5 at the concrete stage `echo hi > a > b`. -/
theorem first_redirection_wins_w :
    extract_redirections (cl "echo hi" ++ ' ' :: '>' :: ' ' :: (cl "a" ++ ' ' :: '>' :: ' ' :: cl "b")) =
      ⟨strip (cl "echo hi"), strip (cl "a"), false, [], false⟩ :=
  first_redirection_wins (cl "echo hi") (cl "a") (cl "b") (by decide) (by decide) (by decide)
    (by decide) (by decide) (by decide) (by decide) (by decide) (by decide)

/-- C4 (amended): redirection operators are recognized by raw substring
search with no regard to quoting: a `>` that appeared inside double
quotes still triggers a stdout redirection, with the text after it
(quote characters included) taken as the target path, instead of being
preserved as argument data. -/
theorem quoted_operator_still_recognized (pre post : List Char)
    (hg0 : '>' ∉ pre) (hg1 : '>' ∉ post)
    (h10 : '1' ∉ pre) (h11 : '1' ∉ post)
    (h20 : '2' ∉ pre) (h21 : '2' ∉ post) :
    extract_redirections (pre ++ '"' :: '>' :: '"' :: post) =
      ⟨strip (pre ++ ['"']), strip ('"' :: post), false, [], false⟩ ∧
    strip ('"' :: post) ≠ [] := by
  have e1 : pre ++ '"' :: '>' :: '"' :: post = (pre ++ ['"']) ++ '>' :: ('"' :: post) := by
    simp
  refine ⟨?_, strip_quote_ne_nil post⟩
  rw [e1]
  have hA : '>' ∉ pre ++ ['"'] := by
    intro hm
    rcases List.mem_append.1 hm with h | h
    · exact hg0 h
    · exact absurd (List.mem_singleton.1 h) (by decide)
  have hC : '>' ∉ '"' :: post := by
    intro hm
    rcases List.mem_cons.1 hm with h | h
    · exact absurd h (by decide)
    · exact hg1 h
  have hdig : ∀ (x : Char), x ∉ pre → x ∉ post → x ≠ '"' → x ≠ '>' →
      x ∉ (pre ++ ['"']) ++ '>' :: ('"' :: post) := by
    intro x hx0 hx1 hxq hxg hm
    rcases List.mem_append.1 hm with h | h
    · rcases List.mem_append.1 h with h' | h'
      · exact hx0 h'
      · exact hxq (List.mem_singleton.1 h')
    · rcases List.mem_cons.1 h with h' | h'
      · exact hxg h'
      · rcases List.mem_cons.1 h' with h'' | h''
        · exact hxq h''
        · exact hx1 h''
  have h2gg : containsSub ['2', '>', '>'] ((pre ++ ['"']) ++ '>' :: ('"' :: post)) = false :=
    containsSub_none _ (hdig '2' h20 h21 (by decide) (by decide))
  have h2g : containsSub ['2', '>'] ((pre ++ ['"']) ++ '>' :: ('"' :: post)) = false :=
    containsSub_none _ (hdig '2' h20 h21 (by decide) (by decide))
  have h1gg : containsSub ['1', '>', '>'] ((pre ++ ['"']) ++ '>' :: ('"' :: post)) = false :=
    containsSub_none _ (hdig '1' h10 h11 (by decide) (by decide))
  have h1g : containsSub ['1', '>'] ((pre ++ ['"']) ++ '>' :: ('"' :: post)) = false :=
    containsSub_none _ (hdig '1' h10 h11 (by decide) (by decide))
  have hgg : containsSub ['>', '>'] ((pre ++ ['"']) ++ '>' :: ('"' :: post)) = false := by
    rw [containsSub_skip _ _ hA]
    apply containsSub_cons_false
    · show List.isPrefixOf ['>', '>'] ('>' :: '"' :: post) = false
      simp [List.isPrefixOf, (by decide : (('>' : Char) == '"') = false)]
    · exact containsSub_none _ hC
  have hgt : containsSub ['>'] ((pre ++ ['"']) ++ '>' :: ('"' :: post)) = true := by
    rw [containsSub_skip _ _ hA]
    simp [containsSub, List.isPrefixOf]
  have hsplit : split1 '>' ((pre ++ ['"']) ++ '>' :: ('"' :: post)) =
      [pre ++ ['"'], '"' :: post] := by
    rw [split1_break '>' _ _ hA, split1_none '>' _ hC]
  simp only [extract_redirections, h2gg, h2g, h1gg, h1g, hgg, hgt, Bool.false_eq_true,
    if_false, if_true, hsplit, secondPart, List.headD, List.drop]

/-- Witness for C4 at the concrete stage `echo ">" f`. -/
theorem quoted_operator_still_recognized_w :
    extract_redirections (cl "echo " ++ '"' :: '>' :: '"' :: cl " f") =
      ⟨strip (cl "echo " ++ ['"']), strip ('"' :: cl " f"), false, [], false⟩ ∧
    strip ('"' :: cl " f") ≠ [] :=
  quoted_operator_still_recognized (cl "echo ") (cl " f") (by decide) (by decide)
    (by decide) (by decide) (by decide) (by decide)

/-- The filter condition of the completion scan, split into the pure
file condition and the dedup test. -/
theorem scanDirFiles_cond (fs : FileSys) (d text : String) (acc : List String) (g : String) :
    ((strStartsWith text g && (fs.isFile (joinPath d g) && fs.accessX (joinPath d g))
        && !(acc.contains g)) = true) ↔ (execCond fs d text g ∧ g ∉ acc) := by
  simp [execCond, Bool.and_eq_true, List.elem_iff, and_assoc]

/-- Membership in the inner completion scan over one directory listing. -/
theorem scanDirFiles_mem (fs : FileSys) (d text : String) :
    ∀ (files acc : List String) (f : String),
      f ∈ scanDirFiles fs d text acc files ↔ f ∈ acc ∨ (f ∈ files ∧ execCond fs d text f)
  | [], acc, f => by simp [scanDirFiles]
  | g :: rest, acc, f => by
    simp only [scanDirFiles]
    by_cases hc : (strStartsWith text g && (fs.isFile (joinPath d g) && fs.accessX (joinPath d g))
        && !(acc.contains g)) = true
    · rw [if_pos hc, scanDirFiles_mem fs d text rest (acc ++ [g]) f]
      obtain ⟨hcg, hnmem⟩ := (scanDirFiles_cond fs d text acc g).1 hc
      simp only [List.mem_append, List.mem_cons, List.not_mem_nil, or_false]
      constructor
      · rintro ((hf | rfl) | ⟨hf, he⟩)
        · exact Or.inl hf
        · exact Or.inr ⟨Or.inl rfl, hcg⟩
        · exact Or.inr ⟨Or.inr hf, he⟩
      · rintro (hf | ⟨rfl | hf, he⟩)
        · exact Or.inl (Or.inl hf)
        · exact Or.inl (Or.inr rfl)
        · exact Or.inr ⟨hf, he⟩
    · rw [if_neg hc, scanDirFiles_mem fs d text rest acc f]
      have hkey : ¬(execCond fs d text g ∧ g ∉ acc) :=
        fun hq => hc ((scanDirFiles_cond fs d text acc g).2 hq)
      simp only [List.mem_cons]
      constructor
      · rintro (hf | ⟨hf, he⟩)
        · exact Or.inl hf
        · exact Or.inr ⟨Or.inr hf, he⟩
      · rintro (hf | ⟨rfl | hf, he⟩)
        · exact Or.inl hf
        · by_cases hmem : f ∈ acc
          · exact Or.inl hmem
          · exact absurd ⟨he, hmem⟩ hkey
        · exact Or.inr ⟨hf, he⟩

/-- Membership in the completion scan over the PATH directories. -/
theorem scanDirs_mem (fs : FileSys) (text : String) :
    ∀ (dirs acc : List String) (f : String),
      f ∈ scanDirs fs text acc dirs ↔
        f ∈ acc ∨ ∃ d ∈ dirs, fs.isDir d = true ∧
          ∃ fl, fs.listDir d = some fl ∧ f ∈ fl ∧ execCond fs d text f
  | [], acc, f => by simp [scanDirs]
  | d :: rest, acc, f => by
    simp only [scanDirs]
    by_cases hd : fs.isDir d = true
    · rw [if_pos hd]
      cases hl : fs.listDir d with
      | none =>
        rw [scanDirs_mem fs text rest acc f]
        constructor
        · rintro (hf | ⟨d', hd', hrest⟩)
          · exact Or.inl hf
          · exact Or.inr ⟨d', List.mem_cons_of_mem _ hd', hrest⟩
        · rintro (hf | ⟨d', hd', hdir, fl, hfl, hrest⟩)
          · exact Or.inl hf
          · rcases List.mem_cons.1 hd' with rfl | hd''
            · rw [hl] at hfl
              exact absurd hfl (by simp)
            · exact Or.inr ⟨d', hd'', hdir, fl, hfl, hrest⟩
      | some files =>
        rw [scanDirs_mem fs text rest _ f, scanDirFiles_mem fs d text files acc f]
        constructor
        · rintro ((hf | ⟨hffl, hcond⟩) | ⟨d', hd', hrest⟩)
          · exact Or.inl hf
          · exact Or.inr ⟨d, List.mem_cons_self _ _, hd, files, hl, hffl, hcond⟩
          · exact Or.inr ⟨d', List.mem_cons_of_mem _ hd', hrest⟩
        · rintro (hf | ⟨d', hd', hdir, fl, hfl, hffl, hcond⟩)
          · exact Or.inl (Or.inl hf)
          · rcases List.mem_cons.1 hd' with rfl | hd''
            · rw [hl] at hfl
              obtain rfl : files = fl := Option.some.inj hfl
              exact Or.inl (Or.inr ⟨hffl, hcond⟩)
            · exact Or.inr ⟨d', hd'', hdir, fl, hfl, hffl, hcond⟩
    · rw [if_neg hd, scanDirs_mem fs text rest acc f]
      constructor
      · rintro (hf | ⟨d', hd', hrest⟩)
        · exact Or.inl hf
        · exact Or.inr ⟨d', List.mem_cons_of_mem _ hd', hrest⟩
      · rintro (hf | ⟨d', hd', hdir, fl, hrest⟩)
        · exact Or.inl hf
        · rcases List.mem_cons.1 hd' with rfl | hd''
          · exact absurd hdir hd
          · exact Or.inr ⟨d', hd'', hdir, fl, hrest⟩

/-- The inner completion scan preserves freedom from duplicates. -/
theorem scanDirFiles_nodup (fs : FileSys) (d text : String) :
    ∀ (files acc : List String), acc.Nodup → (scanDirFiles fs d text acc files).Nodup
  | [], acc, h => by simpa [scanDirFiles] using h
  | g :: rest, acc, h => by
    simp only [scanDirFiles]
    by_cases hc : (strStartsWith text g && (fs.isFile (joinPath d g) && fs.accessX (joinPath d g))
        && !(acc.contains g)) = true
    · rw [if_pos hc]
      refine scanDirFiles_nodup fs d text rest _ ?_
      have hnmem := ((scanDirFiles_cond fs d text acc g).1 hc).2
      simp [List.nodup_append, h, hnmem]
    · rw [if_neg hc]
      exact scanDirFiles_nodup fs d text rest acc h

/-- The outer completion scan preserves freedom from duplicates. -/
theorem scanDirs_nodup (fs : FileSys) (text : String) :
    ∀ (dirs acc : List String), acc.Nodup → (scanDirs fs text acc dirs).Nodup
  | [], acc, h => by simpa [scanDirs] using h
  | d :: rest, acc, h => by
    simp only [scanDirs]
    by_cases hd : fs.isDir d = true
    · rw [if_pos hd]
      cases hl : fs.listDir d with
      | none => exact scanDirs_nodup fs text rest acc h
      | some files => exact scanDirs_nodup fs text rest _ (scanDirFiles_nodup fs d text files acc h)
    · rw [if_neg hd]
      exact scanDirs_nodup fs text rest acc h

/-- C9 (amended): for a non-empty `PATH` the executable part of the
completion result is sorted, duplicate-free, and contains exactly the
prefixed executable regular filenames of the listable PATH directories;
the builtin part consists only of the hard-coded candidate `exit` (not
the registry) and is prepended without global re-sorting or dedup. -/
theorem completion_provider_semantics (fs : FileSys) (path_env text f : String)
    (hp : path_env ≠ "") :
    (get_executable_commands fs path_env text).Sorted (· ≤ ·) ∧
    (get_executable_commands fs path_env text).Nodup ∧
    (f ∈ get_executable_commands fs path_env text ↔
      ∃ d ∈ pathSplit path_env, fs.isDir d = true ∧
        ∃ fl, fs.listDir d = some fl ∧ f ∈ fl ∧ execCond fs d text f) ∧
    get_all_matches fs path_env text =
      (if strStartsWith text "exit" = true then ["exit"] else []) ++
        get_executable_commands fs path_env text := by
  have hrw : get_executable_commands fs path_env text =
      List.insertionSort (· ≤ ·) (scanDirs fs text [] (pathSplit path_env)) := by
    unfold get_executable_commands
    rw [if_neg hp]
  refine ⟨?_, ?_, ?_, ?_⟩
  · rw [hrw]
    exact List.sorted_insertionSort _ _
  · rw [hrw]
    exact (scanDirs_nodup fs text (pathSplit path_env) [] List.nodup_nil).perm
      (List.perm_insertionSort _ _).symm
  · rw [hrw, (List.perm_insertionSort _ _).mem_iff, scanDirs_mem fs text (pathSplit path_env) [] f]
    simp
  · show (["exit"].filter fun b => strStartsWith text b) ++ get_executable_commands fs path_env text =
        (if strStartsWith text "exit" = true then ["exit"] else []) ++
          get_executable_commands fs path_env text
    congr 1
    cases hx : strStartsWith text "exit" with
    | false => simp [List.filter_cons, hx]
    | true => simp [List.filter_cons, hx]

/-- Witness for C9 at a concrete file system, PATH and prefix. -/
theorem completion_provider_semantics_w :
    (get_executable_commands binFS "/bin" "l").Nodup ∧
    get_all_matches binFS "/bin" "l" =
      (if strStartsWith "l" "exit" = true then ["exit"] else []) ++
        get_executable_commands binFS "/bin" "l" :=
  ⟨(completion_provider_semantics binFS "/bin" "l" "ls" (by decide)).2.1,
   (completion_provider_semantics binFS "/bin" "l" "ls" (by decide)).2.2.2⟩
